import Mathlib

/-!
Verification of the Name2Pdf batch PDF renamer.

Strings are modelled as lists of characters.  Each definition embeds the
corresponding Python function of src/Name2Pdf.py; the PDF parsing library
is treated as an external collaborator (an oracle in the run model).
-/

namespace Name2Pdf

/-- Strings of the program, modelled as lists of characters. -/
abbrev Str := List Char

/-- The nine characters removed by sanitize_filename
(regex [\\/:*?"<>|] at line 837 of Name2Pdf.py). -/
def illegalChars : Str := ['\\', '/', ':', '*', '?', '"', '<', '>', '|']

/-- Whether a character is one of the nine illegal filename characters. -/
def isIllegal (c : Char) : Bool := illegalChars.contains c

/-- The whitespace characters stripped by Python str.strip() and
str.rstrip() with no argument, restricted to ASCII. -/
def pySpace (c : Char) : Bool :=
  c == ' ' || c == '\t' || c == '\n' || c == '\r' ||
  c == Char.ofNat 11 || c == Char.ofNat 12

/-- Characters stripped by strip(" .") in sanitize_filename. -/
def isSpaceDot (c : Char) : Bool := c == ' ' || c == '.'

/-- Remove leading characters satisfying p (Python lstrip). -/
def lstripP (p : Char → Bool) (l : Str) : Str := l.dropWhile p

/-- Remove trailing characters satisfying p (Python rstrip). -/
def rstripP (p : Char → Bool) (l : Str) : Str := (l.reverse.dropWhile p).reverse

/-- Remove leading and trailing characters satisfying p (Python strip). -/
def stripP (p : Char → Bool) (l : Str) : Str := rstripP p (lstripP p l)

/-- The fallback filename returned by sanitize_filename. -/
def untitledManual : Str := "Untitled Manual".data

/-- Embedding of PdfRenamerApp.sanitize_filename (lines 823-847):
return the fallback for an empty name, else remove the nine illegal
characters, strip leading and trailing spaces and periods, truncate to
maxLen characters and right-strip whitespace when the length exceeds
maxLen, and return the fallback when the result is empty. -/
def sanitize_filename (name : Str) (maxLen : Nat) : Str :=
  if name = [] then untitledManual
  else
    let s1 := name.filter (fun c => !(isIllegal c))
    let s2 := stripP isSpaceDot s1
    let s3 := if maxLen < s2.length then rstripP pySpace (s2.take maxLen) else s2
    if s3 = [] then untitledManual else s3

theorem sanity_sanitize_report :
    sanitize_filename "Report: Q1/2024*".data 255 = "Report Q12024".data := by
  decide

theorem sanity_sanitize_empty :
    sanitize_filename [] 255 = untitledManual := by decide

lemma length_rstripP_le (p : Char → Bool) (l : Str) :
    (rstripP p l).length ≤ l.length := by
  have h := (List.dropWhile_sublist (l := l.reverse) p).length_le
  simpa [rstripP] using h

lemma mem_of_mem_rstripP {p : Char → Bool} {l : Str} {c : Char}
    (h : c ∈ rstripP p l) : c ∈ l := by
  have := (List.dropWhile_sublist (l := l.reverse) p).subset
  have h2 : c ∈ l.reverse.dropWhile p := by simpa [rstripP] using h
  simpa using this h2

lemma mem_of_mem_stripP {p : Char → Bool} {l : Str} {c : Char}
    (h : c ∈ stripP p l) : c ∈ l := by
  have h1 := mem_of_mem_rstripP h
  exact (List.dropWhile_sublist (l := l) p).subset h1

lemma stripP_eq_nil_of_all {p : Char → Bool} {l : Str}
    (h : ∀ c ∈ l, p c = true) : stripP p l = [] := by
  have h1 : l.dropWhile p = [] := List.dropWhile_eq_nil_iff.mpr h
  simp [stripP, lstripP, rstripP, h1]

lemma untitledManual_length : untitledManual.length = 15 := by decide

lemma untitledManual_no_illegal : ∀ c ∈ untitledManual, isIllegal c = false := by
  decide

/-- C2 counterexample: the string of six question marks is longer than
maxLength 5, yet sanitize returns the fallback name of length 15: every
character is illegal, steps 2-4 leave the empty string, and the fallback
"Untitled Manual" exceeds the bound. -/
theorem sanitize_length_counterexample :
    ("??????".data).length > 5 ∧
      ¬ (sanitize_filename "??????".data 5).length ≤ 5 := by
  decide

/-- C2 (amended): for every string longer than maxLength, provided
maxLength is at least 15 (the length of the fallback name
"Untitled Manual"), the sanitized result has length at most maxLength. -/
theorem sanitize_length_le (s : Str) (maxLen : Nat)
    (h1 : maxLen < s.length) (h2 : 15 ≤ maxLen) :
    (sanitize_filename s maxLen).length ≤ maxLen := by
  unfold sanitize_filename
  split
  · next hnil =>
    subst hnil
    simp at h1
  · next hnil =>
    set s1 := s.filter (fun c => !(isIllegal c)) with hs1
    set s2 := stripP isSpaceDot s1 with hs2
    by_cases htr : maxLen < s2.length
    · simp only [htr, if_true]
      split
      · simpa [untitledManual_length] using h2
      · calc (rstripP pySpace (s2.take maxLen)).length
            ≤ (s2.take maxLen).length := length_rstripP_le _ _
          _ ≤ maxLen := by simp [List.length_take]
    · simp only [htr, if_false]
      split
      · simpa [untitledManual_length] using h2
      · exact Nat.le_of_not_lt htr

/-- C2 witness: the amended bound at a concrete input. -/
theorem sanitize_length_le_witness :
    20 < ("a".data ++ List.replicate 25 '?').length ∧ 15 ≤ 20 ∧
      (sanitize_filename ("a".data ++ List.replicate 25 '?') 20).length ≤ 20 :=
  ⟨by decide, by decide, sanitize_length_le _ 20 (by decide) (by decide)⟩

/-- C7: a raw title that is empty or consists only of illegal characters,
spaces and periods sanitizes to exactly the fallback "Untitled Manual". -/
theorem sanitize_only_junk_gives_untitled (raw : Str) (maxLen : Nat)
    (h : ∀ c ∈ raw, isIllegal c = true ∨ c = ' ' ∨ c = '.') :
    sanitize_filename raw maxLen = untitledManual := by
  unfold sanitize_filename
  split
  · rfl
  · next hnil =>
    have hall : ∀ c ∈ raw.filter (fun c => !(isIllegal c)), isSpaceDot c = true := by
      intro c hc
      have hmem := (List.mem_filter.mp hc).1
      have hkeep := (List.mem_filter.mp hc).2
      simp only [Bool.not_eq_true'] at hkeep
      rcases h c hmem with hill | hsp | hdot
      · rw [hill] at hkeep; exact absurd hkeep (by simp)
      · simp [isSpaceDot, hsp]
      · simp [isSpaceDot, hdot]
    have h2 : stripP isSpaceDot (raw.filter (fun c => !(isIllegal c))) = [] :=
      stripP_eq_nil_of_all hall
    simp [h2]

/-- C7 witness: a concrete all-junk input. -/
theorem sanitize_only_junk_witness :
    (∀ c ∈ "  ?. ".data, isIllegal c = true ∨ c = ' ' ∨ c = '.') ∧
      sanitize_filename "  ?. ".data 255 = untitledManual :=
  ⟨by decide, sanitize_only_junk_gives_untitled _ 255 (by decide)⟩

/-- C9: the sanitized result never contains any of the nine illegal
characters, on every path including the fallback. -/
theorem sanitize_no_illegal (s : Str) (maxLen : Nat) (c : Char)
    (h : isIllegal c = true) : c ∉ sanitize_filename s maxLen := by
  intro hmem
  unfold sanitize_filename at hmem
  split at hmem
  · rw [untitledManual_no_illegal c hmem] at h; exact Bool.false_ne_true h
  · next hnil =>
    dsimp only at hmem
    have hmem1 : c ∈ s.filter (fun c => !(isIllegal c)) ∨ c ∈ untitledManual := by
      split at hmem <;> try split at hmem
      all_goals first
        | exact Or.inr hmem
        | exact Or.inl (mem_of_mem_stripP hmem)
        | exact Or.inl (mem_of_mem_stripP
            ((List.take_sublist _ _).subset (mem_of_mem_rstripP hmem)))
    rcases hmem1 with hmem1 | hmem1
    · have hkeep := (List.mem_filter.mp hmem1).2
      simp only [Bool.not_eq_true'] at hkeep
      rw [h] at hkeep
      exact absurd hkeep (by simp)
    · rw [untitledManual_no_illegal c hmem1] at h
      exact Bool.false_ne_true h

/-- C9 witness: the colon is illegal and absent from a concrete result. -/
theorem sanitize_no_illegal_witness :
    isIllegal ':' = true ∧ ':' ∉ sanitize_filename "Report: Q1".data 255 :=
  ⟨by decide, sanitize_no_illegal _ 255 ':' (by decide)⟩

/-! ### Title extraction -/

/-- Splitting a string at newline characters, as Python split with
separator newline: the empty string yields one empty field. -/
def splitNl : Str → List Str
  | [] => [[]]
  | c :: cs =>
    if c = '\n' then [] :: splitNl cs
    else
      match splitNl cs with
      | [] => [[c]]
      | h :: t => (c :: h) :: t

/-- Trimming surrounding whitespace from a line (Python strip). -/
def trimLine (l : Str) : Str := stripP pySpace l

/-- Whether a trimmed line lowercases to the label "title"
(line.lower() == title at line 810 of Name2Pdf.py). -/
def isTitleLabel (l : Str) : Bool := l.map Char.toLower == "title".data

/-- The inner scan at lines 812-815: the first line after the label whose
stripped value is non-empty. -/
def firstNonEmptyTrimmed : List Str → Option Str
  | [] => none
  | l :: rest =>
    if trimLine l = [] then firstNonEmptyTrimmed rest else some (trimLine l)

/-- The outer scan at lines 809-816: find the first label line, then
run the inner scan on the remaining lines. -/
def findAfterLabel : List Str → Option Str
  | [] => none
  | l :: rest =>
    if isTitleLabel l then firstNonEmptyTrimmed rest else findAfterLabel rest

/-- Embedding of the line-scanning core of
PdfRenamerApp.extract_title_from_pdf (lines 805-817); reading the page-1
text out of the PDF is the external collaborator. -/
def extract_title (text : Str) : Option Str :=
  findAfterLabel ((splitNl text).map trimLine)

/-- Modelled from the spec wording of section 4.1: find the index of the
first line whose trimmed, case-folded value equals "title", then return
the first non-empty trimmed line strictly after it, absent otherwise. -/
def extract_title_spec (text : Str) : Option Str :=
  let lines := (splitNl text).map trimLine
  match lines.findIdx? isTitleLabel with
  | none => none
  | some i => (lines.drop (i + 1)).find? (fun l => !l.isEmpty)

theorem sanity_extract_blank :
    extract_title "Title\n\nMy Document\n".data = some "My Document".data := by
  decide

theorem sanity_extract_none :
    extract_title "Intro\nBody".data = none := by decide

lemma dropWhile_self_dropWhile (p : Char → Bool) (l : Str) :
    (l.dropWhile p).dropWhile p = l.dropWhile p := by
  induction l with
  | nil => rfl
  | cons c cs ih =>
    by_cases hp : p c
    · simp [List.dropWhile_cons, hp, ih]
    · simp [List.dropWhile_cons, hp]

lemma dropWhile_fix_of_rstripP {p : Char → Bool} {l : Str}
    (h : l.dropWhile p = l) : (rstripP p l).dropWhile p = rstripP p l := by
  cases l with
  | nil => rfl
  | cons a t =>
    have ha : p a = false := by
      by_contra hpa
      have hpa2 : p a = true := by
        cases hh : p a
        · exact absurd hh hpa
        · rfl
      rw [List.dropWhile_cons, hpa2] at h
      have := congrArg List.length h
      have hlen := (List.dropWhile_sublist (l := t) p).length_le
      simp at this
      omega
    rw [rstripP, List.reverse_cons, List.dropWhile_append]
    split
    · next hemp =>
      simp only [List.dropWhile_cons, ha]
      simp [List.dropWhile, ha]
    · next hemp =>
      rw [List.reverse_append]
      simp only [List.reverse_cons, List.reverse_nil, List.nil_append,
        List.singleton_append, List.dropWhile_cons, ha]
      simp

lemma trimLine_idem (l : Str) : trimLine (trimLine l) = trimLine l := by
  unfold trimLine stripP lstripP
  have h1 : (l.dropWhile pySpace).dropWhile pySpace = l.dropWhile pySpace :=
    dropWhile_self_dropWhile _ _
  have h2 := dropWhile_fix_of_rstripP h1
  rw [h2]
  unfold rstripP
  rw [List.reverse_reverse, dropWhile_self_dropWhile]

lemma firstNonEmptyTrimmed_eq_find (rest : List Str)
    (h : ∀ l ∈ rest, trimLine l = l) :
    firstNonEmptyTrimmed rest = rest.find? (fun l => !l.isEmpty) := by
  induction rest with
  | nil => rfl
  | cons l t ih =>
    have hl : trimLine l = l := h l (List.mem_cons_self _ _)
    have ht : ∀ x ∈ t, trimLine x = x := fun x hx => h x (List.mem_cons_of_mem _ hx)
    rw [firstNonEmptyTrimmed, hl, List.find?]
    by_cases hemp : l = []
    · subst hemp
      simp [ih ht]
    · have : (!l.isEmpty) = true := by
        cases l
        · exact absurd rfl hemp
        · rfl
      simp [hemp, this]

lemma findAfterLabel_eq_spec (lines : List Str)
    (h : ∀ l ∈ lines, trimLine l = l) :
    findAfterLabel lines =
      match lines.findIdx? isTitleLabel with
      | none => none
      | some i => (lines.drop (i + 1)).find? (fun l => !l.isEmpty) := by
  induction lines with
  | nil => rfl
  | cons l t ih =>
    have ht : ∀ x ∈ t, trimLine x = x := fun x hx => h x (List.mem_cons_of_mem _ hx)
    rw [findAfterLabel, List.findIdx?_cons]
    by_cases hlab : isTitleLabel l
    · simp only [hlab, if_true]
      rw [firstNonEmptyTrimmed_eq_find t ht]
      simp
    · have hlab2 : isTitleLabel l = false := by
        cases hh : isTitleLabel l
        · rfl
        · exact absurd hh hlab
      simp only [hlab2, if_false, Bool.false_eq_true]
      rw [ih ht]
      cases hidx : t.findIdx? isTitleLabel with
      | none => simp [hidx]
      | some i => simp [hidx]

/-- C4: the extraction scan of the code agrees with the specification:
it returns the first non-empty trimmed line strictly after the first
label line, and is absent when there is no label line or no non-empty
line follows it; later label lines are never consulted. -/
theorem extract_title_eq_spec (text : Str) :
    extract_title text = extract_title_spec text := by
  unfold extract_title extract_title_spec
  have h : ∀ l ∈ (splitNl text).map trimLine, trimLine l = l := by
    intro l hl
    rcases List.mem_map.mp hl with ⟨x, _, hx⟩
    rw [← hx]
    exact trimLine_idem x
  exact findAfterLabel_eq_spec _ h

/-! ### Decimal rendering of the duplicate counter -/

/-- Decimal digits of n, least significant first, computed with fuel so
that the definition is structural; fuel n suffices for input n. -/
def digitsAux : Nat → Nat → List Nat
  | _, 0 => []
  | 0, _ + 1 => []
  | fuel + 1, n + 1 => ((n + 1) % 10) :: digitsAux fuel ((n + 1) / 10)

/-- The value represented by a least-significant-first digit list. -/
def digitsVal (ds : List Nat) : Nat := ds.foldr (fun d acc => d + 10 * acc) 0

lemma digitsVal_digitsAux : ∀ fuel n, n ≤ fuel → digitsVal (digitsAux fuel n) = n := by
  intro fuel
  induction fuel with
  | zero =>
    intro n hn
    interval_cases n
    rfl
  | succ f ih =>
    intro n hn
    cases n with
    | zero => rfl
    | succ m =>
      have hdiv : (m + 1) / 10 ≤ f := by
        have h1 : (m + 1) / 10 < m + 1 := Nat.div_lt_self (Nat.succ_pos m) (by omega)
        omega
      rw [digitsAux, digitsVal, List.foldr]
      have := ih ((m + 1) / 10) hdiv
      rw [digitsVal] at this
      rw [this]
      exact Nat.mod_add_div (m + 1) 10

lemma digitsAux_lt_ten : ∀ fuel n, ∀ d ∈ digitsAux fuel n, d < 10 := by
  intro fuel
  induction fuel with
  | zero =>
    intro n d hd
    cases n <;> simp [digitsAux] at hd
  | succ f ih =>
    intro n d hd
    cases n with
    | zero => simp [digitsAux] at hd
    | succ m =>
      rw [digitsAux] at hd
      rcases List.mem_cons.mp hd with h | h
      · subst h; exact Nat.mod_lt _ (by omega)
      · exact ih _ d h

/-- The character of a decimal digit. -/
def digitChar (d : Nat) : Char := Char.ofNat (48 + d)

/-- Decimal string of n, as produced by Python str for a counter. -/
def natToStr (n : Nat) : Str := ((digitsAux n n).reverse).map digitChar

theorem sanity_natToStr : natToStr 1 = "1".data ∧ natToStr 12 = "12".data := by
  decide

lemma digitChar_inj_on : ∀ d < 10, ∀ e < 10, digitChar d = digitChar e → d = e := by
  decide

lemma digitChar_ne_rparen : ∀ d < 10, digitChar d ≠ ')' := by decide

lemma digitChar_toNat : ∀ d < 10, (digitChar d).toNat - 48 = d := by decide

lemma natToStr_inj {n m : Nat} (h : natToStr n = natToStr m) : n = m := by
  unfold natToStr at h
  have hdig : (digitsAux n n).reverse = (digitsAux m m).reverse := by
    have hn : ∀ d ∈ (digitsAux n n).reverse, d < 10 := by
      intro d hd
      exact digitsAux_lt_ten n n d (List.mem_reverse.mp hd)
    have hm : ∀ d ∈ (digitsAux m m).reverse, d < 10 := by
      intro d hd
      exact digitsAux_lt_ten m m d (List.mem_reverse.mp hd)
    have hround : ∀ ds : List Nat, (∀ d ∈ ds, d < 10) →
        (ds.map digitChar).map (fun c => c.toNat - 48) = ds := by
      intro ds hds
      induction ds with
      | nil => rfl
      | cons d t iht =>
        have hd : d < 10 := hds d (List.mem_cons_self _ _)
        have hchar : (digitChar d).toNat - 48 = d := digitChar_toNat d hd
        simp only [List.map_cons, hchar, List.cons.injEq]
        exact ⟨trivial, iht fun x hx => hds x (List.mem_cons_of_mem _ hx)⟩
    calc (digitsAux n n).reverse
        = ((digitsAux n n).reverse.map digitChar).map (fun c => c.toNat - 48) :=
          (hround _ hn).symm
      _ = ((digitsAux m m).reverse.map digitChar).map (fun c => c.toNat - 48) := by
          rw [h]
      _ = (digitsAux m m).reverse := hround _ hm
  have hdig2 : digitsAux n n = digitsAux m m := by
    have := congrArg List.reverse hdig
    simpa using this
  have h1 := digitsVal_digitsAux n n (Nat.le_refl n)
  have h2 := digitsVal_digitsAux m m (Nat.le_refl m)
  rw [← h1, ← h2, hdig2]

lemma natToStr_no_rparen (n : Nat) : ∀ c ∈ natToStr n, c ≠ ')' := by
  intro c hc
  rcases List.mem_map.mp hc with ⟨d, hd, hdc⟩
  have hd10 : d < 10 := digitsAux_lt_ten n n d (List.mem_reverse.mp hd)
  rw [← hdc]
  exact digitChar_ne_rparen d hd10

/-! ### Candidate output names and collision resolution -/

/-- The sequence of candidate output filenames tried by the duplicate
loop at lines 704-710: base.pdf first, then base (N).pdf for N from 1. -/
def candName (base : Str) : Nat → Str
  | 0 => base ++ ".pdf".data
  | n + 1 => base ++ " (".data ++ natToStr (n + 1) ++ ").pdf".data

lemma append_eq_append_of_not_mem {c : Char} :
    ∀ {xs ys r s : Str}, xs ++ c :: r = ys ++ c :: s →
      c ∉ xs → c ∉ ys → xs = ys ∧ r = s := by
  intro xs
  induction xs with
  | nil =>
    intro ys r s h hx hy
    cases ys with
    | nil =>
      simp at h
      exact ⟨rfl, h⟩
    | cons y yt =>
      simp at h
      rcases h with ⟨hc, _⟩
      exact absurd (hc ▸ List.mem_cons_self y yt : c ∈ y :: yt) (hc ▸ hy)
  | cons x xt ih =>
    intro ys r s h hx hy
    cases ys with
    | nil =>
      simp at h
      rcases h with ⟨hc, _⟩
      exact absurd (hc ▸ List.mem_cons_self x xt) hx
    | cons y yt =>
      simp only [List.cons_append, List.cons.injEq] at h
      rcases h with ⟨hxy, h2⟩
      have hx2 : c ∉ xt := fun hh => hx (List.mem_cons_of_mem _ hh)
      have hy2 : c ∉ yt := fun hh => hy (List.mem_cons_of_mem _ hh)
      rcases ih h2 hx2 hy2 with ⟨h3, h4⟩
      exact ⟨by rw [hxy, h3], h4⟩

lemma candName_inj (base : Str) : Function.Injective (candName base) := by
  intro a b h
  match a, b with
  | 0, 0 => rfl
  | 0, m + 1 =>
    exfalso
    simp only [candName] at h
    rw [List.append_assoc, List.append_assoc] at h
    have h2 := List.append_cancel_left h
    simp at h2
  | n + 1, 0 =>
    exfalso
    simp only [candName] at h
    rw [List.append_assoc, List.append_assoc] at h
    have h2 := List.append_cancel_left h
    simp at h2
  | n + 1, m + 1 =>
    simp only [candName, List.append_assoc] at h
    have h2 := List.append_cancel_left h
    have h3 := List.append_cancel_left h2
    have h4 : natToStr (n + 1) ++ ')' :: ".pdf".data =
        natToStr (m + 1) ++ ')' :: ".pdf".data := by
      simpa using h3
    have h5 := append_eq_append_of_not_mem h4
      (fun hc => natToStr_no_rparen (n + 1) ')' hc rfl)
      (fun hc => natToStr_no_rparen (m + 1) ')' hc rfl)
    have := natToStr_inj h5.1
    omega

/-! ### Filesystem model and the duplicate loop -/

/-- The filesystem seen by one run: the input directory d0 and, in copy
mode, the distinct output directory d1.  An entry is a filename paired
with an abstract byte-content identifier. -/
structure FSModel where
  d0 : List (Str × Nat)
  d1 : List (Str × Nat)

/-- The entries of directory d (0 is the input directory, any other
index the output directory of copy mode). -/
def FSModel.dirOf (fs : FSModel) (d : Nat) : List (Str × Nat) :=
  if d = 0 then fs.d0 else fs.d1

/-- The filenames present in directory d. -/
def FSModel.names (fs : FSModel) (d : Nat) : List Str :=
  (fs.dirOf d).map Prod.fst

/-- Path existence test (new_file_path.exists() at line 707). -/
def pathDoesExist (fs : FSModel) (d : Nat) (n : Str) : Bool :=
  (fs.dirOf d).any (fun e => e.1 == n)

/-- The byte content of the file named n in directory d, if present. -/
def lookupContent (fs : FSModel) (d : Nat) (n : Str) : Option Nat :=
  ((fs.dirOf d).find? (fun e => e.1 == n)).map Prod.snd

/-- The duplicate-handling while loop at lines 704-710, with explicit
fuel: starting from candidate index n, return the first candidate name
not present in directory d, or the current candidate when fuel runs out. -/
def firstFreeName (fs : FSModel) (d : Nat) (base : Str) : Nat → Nat → Str
  | 0, n => candName base n
  | fuel + 1, n =>
    if pathDoesExist fs d (candName base n) then firstFreeName fs d base fuel (n + 1)
    else candName base n

/-- The resolved output name for a sanitized base: the loop needs at
most one step per existing directory entry, so fuel one more than the
directory size reproduces the unbounded while loop. -/
def resolveName (fs : FSModel) (d : Nat) (base : Str) : Str :=
  firstFreeName fs d base ((fs.dirOf d).length + 1) 0

lemma pathDoesExist_iff_mem (fs : FSModel) (d : Nat) (n : Str) :
    pathDoesExist fs d n = true ↔ n ∈ fs.names d := by
  unfold pathDoesExist FSModel.names
  rw [List.any_eq_true]
  constructor
  · rintro ⟨e, he, heq⟩
    have : e.1 = n := by simpa using heq
    exact this ▸ List.mem_map_of_mem Prod.fst he
  · intro hn
    rcases List.mem_map.mp hn with ⟨e, he, heq⟩
    exact ⟨e, he, by simpa using heq⟩

lemma exists_free_candidate (fs : FSModel) (d : Nat) (base : Str) :
    ∃ k, k ≤ (fs.names d).length ∧ candName base k ∉ fs.names d := by
  by_contra hcon
  push_neg at hcon
  set L := (fs.names d).length with hL
  have hall : ∀ k ∈ List.range (L + 1), candName base k ∈ fs.names d := by
    intro k hk
    exact hcon k (Nat.lt_succ_iff.mp (List.mem_range.mp hk))
  have hsub : (List.range (L + 1)).map (candName base) ⊆ fs.names d := by
    intro x hx
    rcases List.mem_map.mp hx with ⟨k, hk, hkx⟩
    exact hkx ▸ hall k hk
  have hnodup : ((List.range (L + 1)).map (candName base)).Nodup :=
    (List.nodup_range _).map (candName_inj base)
  have hle := (hnodup.subperm hsub).length_le
  simp [List.length_map, List.length_range] at hle

lemma firstFreeName_free (fs : FSModel) (d : Nat) (base : Str) :
    ∀ fuel n, (∃ k, k ≤ fuel ∧ pathDoesExist fs d (candName base (n + k)) = false) →
      pathDoesExist fs d (firstFreeName fs d base fuel n) = false := by
  intro fuel
  induction fuel with
  | zero =>
    intro n ⟨k, hk, hfree⟩
    interval_cases k
    simpa [firstFreeName] using hfree
  | succ f ih =>
    intro n ⟨k, hk, hfree⟩
    rw [firstFreeName]
    by_cases hex : pathDoesExist fs d (candName base n) = true
    · simp only [hex, if_true]
      apply ih
      have hkpos : k ≠ 0 := by
        intro h0
        subst h0
        simp at hfree
        rw [hfree] at hex
        exact Bool.false_ne_true hex
      refine ⟨k - 1, by omega, ?_⟩
      have : n + 1 + (k - 1) = n + k := by omega
      rw [this]
      exact hfree
    · simp only [Bool.not_eq_true] at hex
      simp [hex]

lemma exists_free_candidate_bounded (fs : FSModel) (d : Nat) (base : Str) :
    ∃ k, k ≤ (fs.dirOf d).length ∧
      pathDoesExist fs d (candName base k) = false := by
  have hlen : (fs.names d).length = (fs.dirOf d).length := by
    simp [FSModel.names]
  rcases exists_free_candidate fs d base with ⟨k, hk, hkfree⟩
  have hkfree2 : pathDoesExist fs d (candName base k) = false := by
    cases hpe : pathDoesExist fs d (candName base k)
    · rfl
    · exact absurd ((pathDoesExist_iff_mem fs d _).mp hpe) hkfree
  exact ⟨k, by omega, hkfree2⟩

lemma resolveName_free (fs : FSModel) (d : Nat) (base : Str) :
    pathDoesExist fs d (resolveName fs d base) = false := by
  rcases exists_free_candidate_bounded fs d base with ⟨k, hk, hkfree⟩
  apply firstFreeName_free
  exact ⟨k, by omega, by simpa using hkfree⟩

lemma resolveName_not_mem (fs : FSModel) (d : Nat) (base : Str) :
    resolveName fs d base ∉ fs.names d := by
  intro hmem
  have h := resolveName_free fs d base
  rw [(pathDoesExist_iff_mem fs d _).mpr hmem] at h
  exact Bool.noConfusion h

/-- C10: collision resolution always terminates at a fresh name: the
candidate names are pairwise distinct, so among the first
directory-size-plus-one candidates some name is free, and the loop
returns a name that does not exist in the output directory. -/
theorem resolveName_terminates_free (fs : FSModel) (d : Nat) (base : Str) :
    Function.Injective (candName base) ∧
      (∃ k, k ≤ (fs.dirOf d).length ∧
        pathDoesExist fs d (candName base k) = false) ∧
      pathDoesExist fs d (resolveName fs d base) = false :=
  ⟨candName_inj base, exists_free_candidate_bounded fs d base,
    resolveName_free fs d base⟩

/-! ### The batch run -/

/-- Result of the extraction collaborator on one file: the PdfReader
call raised (perr), or title extraction returned an optional string. -/
inductive ExtractR
  | perr
  | res (r : Option Str)
deriving DecidableEq

/-- Per-file outcome tag, matching the log branches of
run_renaming_process. -/
inductive Outcome
  | renamed (n : Str)
  | copied (n : Str)
  | skippedNoTitle
  | skippedAlreadyCorrect
  | error
deriving DecidableEq

/-- Mutable state of one run: the filesystem, the three counters
rename_count, skip_count and error_count, and the per-file event log. -/
structure RunState where
  fs : FSModel
  renameCount : Nat
  skipCount : Nat
  errorCount : Nat
  log : List (Str × Outcome)

/-- The directory index that receives outputs: the input directory in
in-place mode, the separate output directory otherwise. -/
def outDirId (inplace : Bool) : Nat := if inplace then 0 else 1

/-- Embedding of one iteration of the per-file loop of
PdfRenamerApp.run_renaming_process (lines 686-745): extract the title
through the oracle, skip when absent, otherwise sanitize, resolve the
first free candidate name in the output directory, skip when in-place
and the resolved path equals the source path, else rename (in-place) or
copy (copy mode) and count the file as processed.  A file that cannot
be read or parsed is counted as an error and the loop moves on. -/
def process_file (inplace : Bool) (oracle : Nat → ExtractR) (maxLen : Nat)
    (st : RunState) (f : Str) : RunState :=
  match lookupContent st.fs 0 f with
  | none =>
    { st with errorCount := st.errorCount + 1, log := st.log ++ [(f, Outcome.error)] }
  | some c =>
    match oracle c with
    | ExtractR.perr =>
      { st with errorCount := st.errorCount + 1, log := st.log ++ [(f, Outcome.error)] }
    | ExtractR.res none =>
      { st with skipCount := st.skipCount + 1,
                log := st.log ++ [(f, Outcome.skippedNoTitle)] }
    | ExtractR.res (some t) =>
      if t = [] then
        { st with skipCount := st.skipCount + 1,
                  log := st.log ++ [(f, Outcome.skippedNoTitle)] }
      else if inplace = true ∧
          resolveName st.fs (outDirId inplace) (sanitize_filename t maxLen) = f then
        { st with skipCount := st.skipCount + 1,
                  log := st.log ++ [(f, Outcome.skippedAlreadyCorrect)] }
      else if inplace = true then
        { st with
          fs := { st.fs with
                  d0 := (st.fs.d0.eraseP (fun e => e.1 == f)) ++
                    [(resolveName st.fs (outDirId inplace) (sanitize_filename t maxLen), c)] },
          renameCount := st.renameCount + 1,
          log := st.log ++
            [(f, Outcome.renamed
                (resolveName st.fs (outDirId inplace) (sanitize_filename t maxLen)))] }
      else
        { st with
          fs := { st.fs with
                  d1 := st.fs.d1 ++
                    [(resolveName st.fs (outDirId inplace) (sanitize_filename t maxLen), c)] },
          renameCount := st.renameCount + 1,
          log := st.log ++
            [(f, Outcome.copied
                (resolveName st.fs (outDirId inplace) (sanitize_filename t maxLen)))] }

/-- Embedding of the whole per-file loop: fold over the snapshot of
enumerated PDF filenames. -/
def run_renaming_process (inplace : Bool) (oracle : Nat → ExtractR)
    (maxLen : Nat) (work : List Str) (st : RunState) : RunState :=
  work.foldl (process_file inplace oracle maxLen) st

/-- The state at the start of a run: given filesystem, zero counters,
empty log. -/
def initState (fs : FSModel) : RunState := ⟨fs, 0, 0, 0, []⟩

/-- The output filename recorded by an outcome, when the outcome wrote
a file. -/
def writtenName : Outcome → Option Str
  | Outcome.renamed n => some n
  | Outcome.copied n => some n
  | _ => none

/-- All output names written during a run, in processing order. -/
def writtenNames (log : List (Str × Outcome)) : List Str :=
  log.filterMap (fun e => writtenName e.2)

/-- C5: when the extraction collaborator raises on a file, that file is
recorded with outcome Error (not SkippedNoTitle), the error counter is
incremented while the skip counter is unchanged, and the run continues
with the remaining files. -/
theorem parse_error_is_counted_error (inplace : Bool) (oracle : Nat → ExtractR)
    (maxLen : Nat) (st : RunState) (f : Str) (rest : List Str) (c : Nat)
    (h1 : lookupContent st.fs 0 f = some c) (h2 : oracle c = ExtractR.perr) :
    process_file inplace oracle maxLen st f =
      { st with errorCount := st.errorCount + 1,
                log := st.log ++ [(f, Outcome.error)] } ∧
    run_renaming_process inplace oracle maxLen (f :: rest) st =
      run_renaming_process inplace oracle maxLen rest
        (process_file inplace oracle maxLen st f) := by
  constructor
  · simp only [process_file, h1, h2]
  · rfl

/-- C5 witness: a run over one corrupt file, at concrete inputs. -/
theorem parse_error_is_counted_error_witness :
    lookupContent (FSModel.mk [("bad.pdf".data, 3)] []) 0 "bad.pdf".data = some 3 ∧
    (fun _ : Nat => ExtractR.perr) 3 = ExtractR.perr ∧
    (process_file false (fun _ => ExtractR.perr) 255
        (initState (FSModel.mk [("bad.pdf".data, 3)] [])) "bad.pdf".data =
      { initState (FSModel.mk [("bad.pdf".data, 3)] []) with
          errorCount := 1,
          log := [("bad.pdf".data, Outcome.error)] } ∧
     run_renaming_process false (fun _ => ExtractR.perr) 255
        ["bad.pdf".data, "ok.pdf".data] (initState (FSModel.mk [("bad.pdf".data, 3)] [])) =
      run_renaming_process false (fun _ => ExtractR.perr) 255 ["ok.pdf".data]
        (process_file false (fun _ => ExtractR.perr) 255
          (initState (FSModel.mk [("bad.pdf".data, 3)] [])) "bad.pdf".data)) :=
  ⟨by decide, rfl,
    parse_error_is_counted_error false (fun _ => ExtractR.perr) 255
      (initState (FSModel.mk [("bad.pdf".data, 3)] [])) "bad.pdf".data
      ["ok.pdf".data] 3 (by decide) rfl⟩

lemma process_file_one_outcome (inplace : Bool) (oracle : Nat → ExtractR)
    (maxLen : Nat) (st : RunState) (f : Str) :
    (process_file inplace oracle maxLen st f).renameCount +
        (process_file inplace oracle maxLen st f).skipCount +
        (process_file inplace oracle maxLen st f).errorCount =
      st.renameCount + st.skipCount + st.errorCount + 1 ∧
    (process_file inplace oracle maxLen st f).log.length = st.log.length + 1 := by
  unfold process_file
  repeat' split
  all_goals simp +arith [List.length_append]

lemma run_counts_general (inplace : Bool) (oracle : Nat → ExtractR) (maxLen : Nat) :
    ∀ (work : List Str) (st : RunState),
      (run_renaming_process inplace oracle maxLen work st).renameCount +
          (run_renaming_process inplace oracle maxLen work st).skipCount +
          (run_renaming_process inplace oracle maxLen work st).errorCount =
        st.renameCount + st.skipCount + st.errorCount + work.length ∧
      (run_renaming_process inplace oracle maxLen work st).log.length =
        st.log.length + work.length := by
  intro work
  induction work with
  | nil => intro st; simp [run_renaming_process]
  | cons f rest ih =>
    intro st
    have hstep := process_file_one_outcome inplace oracle maxLen st f
    have htail := ih (process_file inplace oracle maxLen st f)
    have hrun : run_renaming_process inplace oracle maxLen (f :: rest) st =
        run_renaming_process inplace oracle maxLen rest
          (process_file inplace oracle maxLen st f) := rfl
    rw [hrun]
    constructor
    · rw [htail.1, hstep.1]
      simp +arith
    · rw [htail.2, hstep.2]
      simp +arith

/-- C6: over a non-empty work list every enumerated file yields exactly
one outcome: the log has one entry per file and the three summary
counters add up to the number of files. -/
theorem run_one_outcome_per_file (inplace : Bool) (oracle : Nat → ExtractR)
    (maxLen : Nat) (work : List Str) (fs0 : FSModel) (h : work ≠ []) :
    (run_renaming_process inplace oracle maxLen work (initState fs0)).log.length =
        work.length ∧
      (run_renaming_process inplace oracle maxLen work (initState fs0)).renameCount +
          (run_renaming_process inplace oracle maxLen work (initState fs0)).skipCount +
          (run_renaming_process inplace oracle maxLen work (initState fs0)).errorCount =
        work.length := by
  have hg := run_counts_general inplace oracle maxLen work (initState fs0)
  refine ⟨?_, ?_⟩
  · rw [hg.2]; simp [initState]
  · rw [hg.1]; simp [initState]

/-- The extraction behavior of the three-PDF example folder: content 1
has a label line followed by Alpha, content 2 has no label, content 3
is unreadable. -/
def threeFileOracle : Nat → ExtractR :=
  fun c =>
    if c = 1 then ExtractR.res (extract_title "Title\nAlpha".data)
    else if c = 2 then ExtractR.res (extract_title "Intro\nBody".data)
    else ExtractR.perr

/-- The three-PDF example folder. -/
def threeFileFS : FSModel :=
  FSModel.mk [("a.pdf".data, 1), ("b.pdf".data, 2), ("c.pdf".data, 3)] []

/-- C6 witness: the folder of three PDFs; one outcome per file and the
summary reads processed 1, skipped 1, errors 1. -/
theorem run_one_outcome_per_file_witness :
    (["a.pdf".data, "b.pdf".data, "c.pdf".data] ≠ ([] : List Str)) ∧
    ((run_renaming_process false threeFileOracle 255
        ["a.pdf".data, "b.pdf".data, "c.pdf".data] (initState threeFileFS)).log.length = 3 ∧
      (run_renaming_process false threeFileOracle 255
          ["a.pdf".data, "b.pdf".data, "c.pdf".data] (initState threeFileFS)).renameCount +
        (run_renaming_process false threeFileOracle 255
          ["a.pdf".data, "b.pdf".data, "c.pdf".data] (initState threeFileFS)).skipCount +
        (run_renaming_process false threeFileOracle 255
          ["a.pdf".data, "b.pdf".data, "c.pdf".data] (initState threeFileFS)).errorCount = 3) ∧
    (run_renaming_process false threeFileOracle 255
        ["a.pdf".data, "b.pdf".data, "c.pdf".data] (initState threeFileFS)).renameCount = 1 ∧
    (run_renaming_process false threeFileOracle 255
        ["a.pdf".data, "b.pdf".data, "c.pdf".data] (initState threeFileFS)).skipCount = 1 ∧
    (run_renaming_process false threeFileOracle 255
        ["a.pdf".data, "b.pdf".data, "c.pdf".data] (initState threeFileFS)).errorCount = 1 :=
  ⟨by decide,
    run_one_outcome_per_file false threeFileOracle 255 _ threeFileFS (by decide),
    by decide, by decide, by decide⟩

/-- C8: in copy mode the input directory is never touched: every source
file keeps its name and bytes whatever the per-file outcomes are. -/
theorem copy_mode_preserves_sources (oracle : Nat → ExtractR) (maxLen : Nat)
    (work : List Str) (st : RunState) :
    (run_renaming_process false oracle maxLen work st).fs.d0 = st.fs.d0 := by
  induction work generalizing st with
  | nil => rfl
  | cons f rest ih =>
    have hrun : run_renaming_process false oracle maxLen (f :: rest) st =
        run_renaming_process false oracle maxLen rest
          (process_file false oracle maxLen st f) := rfl
    rw [hrun, ih]
    unfold process_file
    repeat' split
    all_goals simp_all

/-- C1 evidence: in an in-place run over the single file Report.pdf
whose extracted title sanitizes to Report, the duplicate loop sees the
source file itself, so the file is renamed to Report (1).pdf and counted
as processed; the skip branch for already-correct names never fires. -/
theorem inplace_already_named_is_renamed :
    (run_renaming_process true (fun _ => ExtractR.res (some "Report".data)) 255
        ["Report.pdf".data]
        (initState (FSModel.mk [("Report.pdf".data, 7)] []))).log =
      [("Report.pdf".data, Outcome.renamed "Report (1).pdf".data)] ∧
    (run_renaming_process true (fun _ => ExtractR.res (some "Report".data)) 255
        ["Report.pdf".data]
        (initState (FSModel.mk [("Report.pdf".data, 7)] []))).fs.d0 =
      [("Report (1).pdf".data, 7)] ∧
    (run_renaming_process true (fun _ => ExtractR.res (some "Report".data)) 255
        ["Report.pdf".data]
        (initState (FSModel.mk [("Report.pdf".data, 7)] []))).renameCount = 1 ∧
    (run_renaming_process true (fun _ => ExtractR.res (some "Report".data)) 255
        ["Report.pdf".data]
        (initState (FSModel.mk [("Report.pdf".data, 7)] []))).skipCount = 0 := by
  decide

/-! ### Uniqueness of written output names -/

lemma map_fst_eraseP (l : List (Str × Nat)) (f : Str) :
    (l.eraseP (fun e => e.1 == f)).map Prod.fst =
      (l.map Prod.fst).eraseP (fun n => n == f) := by
  induction l with
  | nil => rfl
  | cons a t ih =>
    by_cases h : a.1 == f
    · simp [List.eraseP_cons, h]
    · simp [List.eraseP_cons, h, ih]

lemma mem_eraseP_ne {l : List Str} {x f : Str} (hx : x ∈ l) (hne : x ≠ f) :
    x ∈ l.eraseP (fun n => n == f) := by
  induction l with
  | nil => cases hx
  | cons a t ih =>
    by_cases h : (a == f) = true
    · rw [List.eraseP_cons, h]
      rcases List.mem_cons.mp hx with hxa | hmem
      · exact absurd (hxa.trans (by simpa using h)) hne
      · exact hmem
    · rw [List.eraseP_cons]
      simp only [Bool.not_eq_true] at h
      rw [h]
      rcases List.mem_cons.mp hx with hxa | hmem
      · simp [hxa]
      · simp [ih hmem]

lemma nodup_append_singleton {l : List Str} {x : Str}
    (h1 : l.Nodup) (h2 : x ∉ l) : (l ++ [x]).Nodup := by
  rw [List.nodup_append]
  refine ⟨h1, List.nodup_singleton x, ?_⟩
  intro a ha hax
  rw [List.mem_singleton] at hax
  exact h2 (hax ▸ ha)

lemma writtenNames_append (log : List (Str × Outcome)) (f : Str) (o : Outcome) :
    writtenNames (log ++ [(f, o)]) = writtenNames log ++ (writtenName o).toList := by
  cases o <;> simp [writtenNames, writtenName, List.filterMap_append]

lemma names_zero (fs : FSModel) : FSModel.names fs 0 = fs.d0.map Prod.fst := by
  simp [FSModel.names, FSModel.dirOf]

lemma names_one (fs : FSModel) : FSModel.names fs 1 = fs.d1.map Prod.fst := by
  simp [FSModel.names, FSModel.dirOf]

/-- Induction invariant for the uniqueness of written names: the
directory listings stay duplicate-free, the files still to process all
exist in the input directory, the names written so far are
duplicate-free and still present in the output directory, and (in-place
mode) no pending source file bears a written name. -/
structure RunInv (inplace : Bool) (st : RunState) (rem : List Str) : Prop where
  nodup0 : (FSModel.names st.fs 0).Nodup
  nodupOut : (FSModel.names st.fs (outDirId inplace)).Nodup
  remNodup : rem.Nodup
  remMem : ∀ f ∈ rem, f ∈ FSModel.names st.fs 0
  wNodup : (writtenNames st.log).Nodup
  wMem : ∀ w ∈ writtenNames st.log, w ∈ FSModel.names st.fs (outDirId inplace)
  remW : inplace = true → ∀ f ∈ rem, f ∉ writtenNames st.log

lemma runInv_of_unwritten {inplace : Bool} {st st' : RunState} {f : Str}
    {rem : List Str} {o : Outcome} (inv : RunInv inplace st (f :: rem))
    (hfs : st'.fs = st.fs) (hlog : st'.log = st.log ++ [(f, o)])
    (ho : writtenName o = none) : RunInv inplace st' rem := by
  have hw : writtenNames st'.log = writtenNames st.log := by
    rw [hlog, writtenNames_append, ho]
    simp
  refine ⟨?_, ?_, ?_, ?_, ?_, ?_, ?_⟩
  · rw [hfs]; exact inv.nodup0
  · rw [hfs]; exact inv.nodupOut
  · exact (List.nodup_cons.mp inv.remNodup).2
  · intro g hg
    rw [hfs]
    exact inv.remMem g (List.mem_cons_of_mem _ hg)
  · rw [hw]; exact inv.wNodup
  · intro w hw2
    rw [hfs]
    exact inv.wMem w (hw ▸ hw2)
  · intro hip g hg
    rw [hw]
    exact inv.remW hip g (List.mem_cons_of_mem _ hg)

lemma process_file_inv (inplace : Bool) (oracle : Nat → ExtractR) (maxLen : Nat)
    (st : RunState) (f : Str) (rem : List Str)
    (inv : RunInv inplace st (f :: rem)) :
    RunInv inplace (process_file inplace oracle maxLen st f) rem := by
  cases hlk : lookupContent st.fs 0 f with
  | none =>
    exact @runInv_of_unwritten inplace st _ f rem Outcome.error inv
      (by simp only [process_file, hlk]) (by simp only [process_file, hlk]) rfl
  | some c =>
    cases hor : oracle c with
    | perr =>
      exact @runInv_of_unwritten inplace st _ f rem Outcome.error inv
        (by simp only [process_file, hlk, hor]) (by simp only [process_file, hlk, hor])
        rfl
    | res r =>
      cases r with
      | none =>
        exact @runInv_of_unwritten inplace st _ f rem Outcome.skippedNoTitle inv
          (by simp only [process_file, hlk, hor])
          (by simp only [process_file, hlk, hor]) rfl
      | some t =>
        by_cases ht : t = []
        · exact @runInv_of_unwritten inplace st _ f rem Outcome.skippedNoTitle inv
            (by simp only [process_file, hlk, hor, if_pos ht])
            (by simp only [process_file, hlk, hor, if_pos ht]) rfl
        · by_cases hsk : inplace = true ∧
              resolveName st.fs (outDirId inplace) (sanitize_filename t maxLen) = f
          · exact @runInv_of_unwritten inplace st _ f rem
              Outcome.skippedAlreadyCorrect inv
              (by simp only [process_file, hlk, hor, if_neg ht, if_pos hsk])
              (by simp only [process_file, hlk, hor, if_neg ht, if_pos hsk]) rfl
          · by_cases hip : inplace = true
            · -- in-place rename of f to the resolved fresh name
              subst hip
              have hout : outDirId true = 0 := rfl
              simp only [process_file, hlk, hor]
              rw [if_neg ht]
              split
              · next hcond => exact absurd ⟨rfl, hcond.2⟩ hsk
              split
              swap
              · next hcond => simp at hcond
              set nn := resolveName st.fs (outDirId true) (sanitize_filename t maxLen)
                with hnn
              have hfree : nn ∉ FSModel.names st.fs 0 := by
                rw [hnn, hout]
                exact resolveName_not_mem st.fs 0 _
              have hnames0 : FSModel.names
                  (FSModel.mk ((st.fs.d0.eraseP (fun e => e.1 == f)) ++ [(nn, c)])
                    st.fs.d1) 0 =
                  (FSModel.names st.fs 0).eraseP (fun n => n == f) ++ [nn] := by
                simp [names_zero, map_fst_eraseP]
              have hnames1 : FSModel.names
                  (FSModel.mk ((st.fs.d0.eraseP (fun e => e.1 == f)) ++ [(nn, c)])
                    st.fs.d1) 1 = FSModel.names st.fs 1 := by
                simp [names_one]
              have hWlog : writtenNames (st.log ++ [(f, Outcome.renamed nn)]) =
                  writtenNames st.log ++ [nn] := by
                rw [writtenNames_append]
                rfl
              have hfW : f ∉ writtenNames st.log :=
                inv.remW rfl f (List.mem_cons_self _ _)
              have hWsub : ∀ w ∈ writtenNames st.log, w ∈ FSModel.names st.fs 0 :=
                fun w hw => inv.wMem w hw
              have hnnW : nn ∉ writtenNames st.log := fun hmem => hfree (hWsub nn hmem)
              have herased : ((FSModel.names st.fs 0).eraseP (fun n => n == f)).Nodup :=
                (List.eraseP_sublist _).nodup inv.nodup0
              have hnnerased : nn ∉ (FSModel.names st.fs 0).eraseP (fun n => n == f) :=
                fun hmem => hfree ((List.eraseP_sublist _).subset hmem)
              refine ⟨?_, ?_, ?_, ?_, ?_, ?_, ?_⟩ <;> (try dsimp only)
              · rw [hnames0]
                exact nodup_append_singleton herased hnnerased
              · rw [hout, hnames0]
                exact nodup_append_singleton herased hnnerased
              · exact (List.nodup_cons.mp inv.remNodup).2
              · intro g hg
                rw [hnames0]
                have hg0 : g ∈ FSModel.names st.fs 0 :=
                  inv.remMem g (List.mem_cons_of_mem _ hg)
                have hgf : g ≠ f := by
                  intro hgf
                  exact (List.nodup_cons.mp inv.remNodup).1 (hgf ▸ hg)
                exact List.mem_append_left _ (mem_eraseP_ne hg0 hgf)
              · rw [hWlog]
                exact nodup_append_singleton inv.wNodup hnnW
              · intro w hw2
                rw [hout, hnames0]
                rw [hWlog] at hw2
                rcases List.mem_append.mp hw2 with hw3 | hw3
                · have hw0 : w ∈ FSModel.names st.fs 0 := hWsub w hw3
                  have hwf : w ≠ f := fun hwf => hfW (hwf ▸ hw3)
                  exact List.mem_append_left _ (mem_eraseP_ne hw0 hwf)
                · exact List.mem_append_right _ hw3
              · intro _ g hg
                rw [hWlog]
                intro hcon
                rcases List.mem_append.mp hcon with hw3 | hw3
                · exact inv.remW rfl g (List.mem_cons_of_mem _ hg) hw3
                · have hg0 : g ∈ FSModel.names st.fs 0 :=
                    inv.remMem g (List.mem_cons_of_mem _ hg)
                  rw [List.mem_singleton] at hw3
                  exact hfree (hw3 ▸ hg0)
            · -- copy mode: append the fresh name to the output directory
              have hip2 : inplace = false := by
                cases inplace
                · rfl
                · exact absurd rfl hip
              subst hip2
              have hout : outDirId false = 1 := rfl
              simp only [process_file, hlk, hor]
              rw [if_neg ht]
              split
              · next hcond => simp at hcond
              set nn := resolveName st.fs (outDirId false) (sanitize_filename t maxLen)
                with hnn
              have hfree : nn ∉ FSModel.names st.fs 1 := by
                rw [hnn, hout]
                exact resolveName_not_mem st.fs 1 _
              have hnames0 : FSModel.names
                  (FSModel.mk st.fs.d0 (st.fs.d1 ++ [(nn, c)])) 0 =
                  FSModel.names st.fs 0 := by
                simp [names_zero]
              have hnames1 : FSModel.names
                  (FSModel.mk st.fs.d0 (st.fs.d1 ++ [(nn, c)])) 1 =
                  FSModel.names st.fs 1 ++ [nn] := by
                simp [names_one]
              have hWlog : writtenNames (st.log ++ [(f, Outcome.copied nn)]) =
                  writtenNames st.log ++ [nn] := by
                rw [writtenNames_append]
                rfl
              have hWsub : ∀ w ∈ writtenNames st.log, w ∈ FSModel.names st.fs 1 :=
                fun w hw => inv.wMem w hw
              have hnnW : nn ∉ writtenNames st.log := fun hmem => hfree (hWsub nn hmem)
              refine ⟨?_, ?_, ?_, ?_, ?_, ?_, ?_⟩ <;> (try dsimp only)
              · rw [hnames0]; exact inv.nodup0
              · rw [hout, hnames1]
                exact nodup_append_singleton inv.nodupOut hfree
              · exact (List.nodup_cons.mp inv.remNodup).2
              · intro g hg
                rw [hnames0]
                exact inv.remMem g (List.mem_cons_of_mem _ hg)
              · rw [hWlog]
                exact nodup_append_singleton inv.wNodup hnnW
              · intro w hw2
                rw [hout, hnames1]
                rw [hWlog] at hw2
                rcases List.mem_append.mp hw2 with hw3 | hw3
                · exact List.mem_append_left _ (hWsub w hw3)
                · exact List.mem_append_right _ hw3
              · intro hip3
                exact absurd hip3 Bool.false_ne_true

lemma run_inv (inplace : Bool) (oracle : Nat → ExtractR) (maxLen : Nat) :
    ∀ (work : List Str) (st : RunState), RunInv inplace st work →
      RunInv inplace (run_renaming_process inplace oracle maxLen work st) [] := by
  intro work
  induction work with
  | nil => intro st inv; exact inv
  | cons f rest ih =>
    intro st inv
    exact ih _ (process_file_inv inplace oracle maxLen st f rest inv)

/-- C3: within one run the output names written for distinct source
files are pairwise distinct, whenever the starting directory listings
are duplicate-free and the work list is the duplicate-free enumeration
of files of the input directory. -/
theorem run_written_names_distinct (inplace : Bool) (oracle : Nat → ExtractR)
    (maxLen : Nat) (work : List Str) (fs0 : FSModel)
    (h0 : (FSModel.names fs0 0).Nodup)
    (h1 : (FSModel.names fs0 (outDirId inplace)).Nodup)
    (hw : work.Nodup)
    (hmem : ∀ f ∈ work, f ∈ FSModel.names fs0 0) :
    (writtenNames
      (run_renaming_process inplace oracle maxLen work (initState fs0)).log).Nodup := by
  have inv0 : RunInv inplace (initState fs0) work := by
    refine ⟨h0, h1, hw, hmem, ?_, ?_, ?_⟩
    · simp [initState, writtenNames]
    · intro w hw2
      simp [initState, writtenNames] at hw2
    · intro _ g _ hcon
      simp [initState, writtenNames] at hcon
  exact (run_inv inplace oracle maxLen work (initState fs0) inv0).wNodup

/-- The two-file folder in which both titles sanitize to Report. -/
def twoReportFS : FSModel := FSModel.mk [("a.pdf".data, 1), ("b.pdf".data, 2)] []

/-- C3 witness: two files that both sanitize to Report, processed in
enumeration order, receive Report.pdf then Report (1).pdf — never the
same name twice. -/
theorem run_written_names_distinct_witness :
    ((FSModel.names twoReportFS 0).Nodup ∧
      (FSModel.names twoReportFS (outDirId false)).Nodup ∧
      ["a.pdf".data, "b.pdf".data].Nodup ∧
      (∀ f ∈ ["a.pdf".data, "b.pdf".data], f ∈ FSModel.names twoReportFS 0)) ∧
    (writtenNames
      (run_renaming_process false (fun _ => ExtractR.res (some "Report".data)) 255
        ["a.pdf".data, "b.pdf".data] (initState twoReportFS)).log).Nodup ∧
    writtenNames
      (run_renaming_process false (fun _ => ExtractR.res (some "Report".data)) 255
        ["a.pdf".data, "b.pdf".data] (initState twoReportFS)).log =
      ["Report.pdf".data, "Report (1).pdf".data] :=
  ⟨⟨by decide, by decide, by decide, by decide⟩,
    run_written_names_distinct false (fun _ => ExtractR.res (some "Report".data)) 255
      ["a.pdf".data, "b.pdf".data] twoReportFS
      (by decide) (by decide) (by decide) (by decide),
    by decide⟩

end Name2Pdf
